/-
Verification of the Private Knowledge Q&A repository.

The development shallowly embeds the two source files
`server/server.js` and `client/.../PrivateQAAppPreview.jsx` (shipped inside
`Button.jsx`): JavaScript strings become `List Char`, the in-memory document
arrays become Lean lists, and the Express / React handlers become total Lean
functions.  JS `Array.prototype.sort` (required stable with a consistent
comparator since ES2019) is modelled by a stable insertion sort `jsSort`;
regular-expression operations used by the code (`split(/\s+/)`,
`split(/[.!?]+/)`, `split(/\n\s*\n/)`, whole-word `\b w \b` match counting)
are implemented directly over character lists.  ASCII inputs are assumed for
`toLowerCase` (modelled by `Char.toLower`), matching every string literal in
the repository.
-/
import Mathlib

namespace PrivateQA

/-- JavaScript strings are modelled as lists of characters. -/
abbrev Str := List Char

/-- Coerce a Lean string literal into the model. -/
def strOf (s : String) : Str := s.data

/-- The apostrophe character (used in the canned answer messages). -/
def apos : Char := Char.ofNat 39

/-- JS whitespace class `\s`, restricted to the ASCII whitespace characters. -/
def isJsWs (c : Char) : Bool :=
  c = ' ' || c = '\t' || c = '\n' || c = '\r' || c = Char.ofNat 11 || c = Char.ofNat 12

/-- `String.prototype.toLowerCase`, ASCII fragment. -/
def lowerStr (s : Str) : Str := s.map Char.toLower

/-- Strip leading whitespace (helper for `trim`). -/
def trimLeft (l : Str) : Str := l.dropWhile isJsWs

/-- Strip trailing whitespace (helper for `trim`). -/
def trimRight (l : Str) : Str := (l.reverse.dropWhile isJsWs).reverse

/-- `String.prototype.trim`. -/
def trim (l : Str) : Str := trimRight (trimLeft l)

/-- Core of splitting on runs of separator characters, as JS
`split(/[c]+/)` does: `inSep` records whether we are inside a separator run,
`acc` holds the current piece reversed. -/
def splitSepsCore (p : Char → Bool) : List Char → Bool → List Char → List (List Char)
  | [], inSep, acc => if inSep then [[]] else [acc.reverse]
  | c :: rest, inSep, acc =>
    if inSep then
      if p c then splitSepsCore p rest true []
      else splitSepsCore p rest false [c]
    else
      if p c then acc.reverse :: splitSepsCore p rest true []
      else splitSepsCore p rest false (c :: acc)

/-- JS `str.split(/[…]+/)` where `p` recognises the separator class. -/
def splitSeps (p : Char → Bool) (l : Str) : List Str := splitSepsCore p l false []

/-- Core of JS `str.split(sep)` for a single-character string separator:
every occurrence of `sep` is a boundary, so adjacent separators yield empty
pieces. -/
def splitCharCore (sep : Char) : List Char → List Char → List (List Char)
  | [], acc => [acc.reverse]
  | c :: rest, acc =>
    if c = sep then acc.reverse :: splitCharCore sep rest []
    else splitCharCore sep rest (c :: acc)

/-- JS `str.split(sep)` for a one-character separator. -/
def splitChar (sep : Char) (l : Str) : List Str := splitCharCore sep l []

/-- Index of the last occurrence of `c` in `l`, if any. -/
def lastIdxOf (c : Char) : List Char → Option Nat
  | [] => none
  | a :: rest =>
    match lastIdxOf c rest with
    | some i => some (i + 1)
    | none => if a = c then some 0 else none

/-- Core of JS `str.split(/\n\s*\n/)` (the client paragraph splitter).  At a
`'\n'` the greedy regex consumes up to the last newline inside the maximal
following whitespace run; if that run holds no further newline there is no
match.  The fuel argument (initialised to `length + 1`) only serves to make
the recursion structural; one unit is spent per consumed character, so it
never runs out. -/
def splitParasFuel : Nat → List Char → List Char → List (List Char)
  | 0, _, acc => [acc.reverse]
  | fuel + 1, l, acc =>
    match l with
    | [] => [acc.reverse]
    | c :: rest =>
      if c = '\n' then
        match lastIdxOf '\n' (rest.takeWhile isJsWs) with
        | some j => acc.reverse :: splitParasFuel fuel (rest.drop (j + 1)) []
        | none => splitParasFuel fuel rest (c :: acc)
      else splitParasFuel fuel rest (c :: acc)

/-- JS `str.split(/\n\s*\n/)`. -/
def splitParas (l : Str) : List Str := splitParasFuel (l.length + 1) l []

/-- JS `String.prototype.includes`: substring test. -/
def isSubstr (n : List Char) : List Char → Bool
  | [] => n.isEmpty
  | c :: rest => n.isPrefixOf (c :: rest) || isSubstr n rest

/-- JS `\w` word-character class: `[A-Za-z0-9_]`. -/
def wordChar (c : Char) : Bool := c.isAlpha || c.isDigit || c = '_'

/-- Does a `\b` word boundary sit between a previous character and a next
one?  Out-of-range neighbours count as non-word characters. -/
def boundaryBetween (prev next : Option Char) : Bool :=
  (match prev with | some c => wordChar c | none => false)
    ≠ (match next with | some c => wordChar c | none => false)

/-- Does the regex `\b w \b` match at the start of `s`, with `prev` the
character just before `s`? -/
def wwMatchAt (w : List Char) (prev : Option Char) (s : List Char) : Bool :=
  w.isPrefixOf s
    && boundaryBetween prev s.head?
    && boundaryBetween w.getLast? (s.drop w.length).head?

/-- Fuelled scan counting non-overlapping matches of `\b w \b` (JS
`str.match(/\bw\b/g).length`).  After a match the scan resumes right after
the matched text, as the `g` flag does.  Fuel is spent one unit per scan
step and initialised to the string length, which suffices because every
step consumes at least one character. -/
def wwCountFuel (w : List Char) : Nat → Option Char → List Char → Nat
  | 0, _, _ => 0
  | fuel + 1, prev, s =>
    match s with
    | [] => 0
    | c :: rest =>
      if w.isEmpty then 0
      else if wwMatchAt w prev (c :: rest) then
        1 + wwCountFuel w fuel w.getLast? ((c :: rest).drop w.length)
      else wwCountFuel w fuel (some c) rest

/-- Number of whole-word matches of `w` in `s`. -/
def wwCount (w s : List Char) : Nat := wwCountFuel w s.length none s

/-- First-occurrence deduplication, as JS `[...new Set(arr)]` produces
(`seen` accumulates the values already emitted). -/
def dedupFirst [DecidableEq α] : List α → List α → List α
  | [], _ => []
  | a :: l, seen =>
    if a ∈ seen then dedupFirst l seen
    else a :: dedupFirst l (a :: seen)

/-- Insert-or-replace on an association list, mirroring both JS
`Map.prototype.set` and plain-object string-key assignment: an existing key
keeps its position and gets the new value, a new key is appended. -/
def upsert (m : List (Str × α)) (k : Str) (v : α) : List (Str × α) :=
  match m with
  | [] => [(k, v)]
  | (k0, v0) :: rest => if k0 = k then (k, v) :: rest else (k0, v0) :: upsert rest k v

/-- JS `Array.prototype.findIndex`. -/
def findIndex (p : α → Bool) : List α → Option Nat
  | [] => none
  | a :: l => if p a then some 0 else (findIndex p l).map (· + 1)

/-- Sort keys are pairs (primary, secondary); `keyGt k1 k2` holds when the
comparator used in the sources would place a `k1` element strictly before a
`k2` element (larger primary first, ties by larger secondary). -/
def keyGt (k1 k2 : Nat × Nat) : Bool :=
  if k1.1 = k2.1 then decide (k2.2 < k1.2) else decide (k2.1 < k1.1)

/-- Insert `a` into an (already descending) list, after every element whose
key is not strictly smaller — the placement a stable sort gives. -/
def insertStable (key : α → Nat × Nat) (a : α) : List α → List α
  | [] => [a]
  | b :: l => if keyGt (key a) (key b) then a :: b :: l else b :: insertStable key a l

/-- Model of JS `Array.prototype.sort` with a comparator consistent with
`key` (descending, e.g. `(a, b) => b.score - a.score`): ES2019 requires the
sort to be stable, which pins the result down to this stable insertion
sort. -/
def jsSort (key : α → Nat × Nat) (l : List α) : List α :=
  l.foldl (fun acc a => insertStable key a acc) []

/-! ## Data model -/

/-- Server-side document record (`server.js`, `/api/upload`).  The pure
metadata fields `filename`, `path` and `uploadedAt` only feed the file
system and logging and are omitted from the model. -/
structure SDoc where
  id : Nat
  name : Str
  content : Str
  size : Nat
deriving DecidableEq

/-- Client-side document record (`handleUpload`); ids are
`Date.now().toString()` strings. -/
structure CDoc where
  id : Str
  name : Str
  content : Str
  size : Nat
deriving DecidableEq

/-- One entry of an `AnswerResult.sources` list. -/
structure SourceRec where
  document : Str
  excerpt : Str
deriving DecidableEq

/-- A transient match candidate of the server fallback engine
(`allMatches` entries in `getAnswerFromDocuments`). -/
structure SMatch where
  document : Str
  excerpt : Str
  score : Nat
  matchCount : Nat
deriving DecidableEq

/-- A transient match candidate of the client engine (`relevantChunks`
entries in `findAnswerInDocuments`). -/
structure CChunk where
  text : Str
  score : Nat
  source : Str
deriving DecidableEq

/-! ## Server fallback engine (`getAnswerFromDocuments`, server.js 129-206) -/

/-- Sentence separator class of `split(/[.!?]+/)`. -/
def isSentenceSep (c : Char) : Bool := c = '.' || c = '!' || c = '?'

/-- `questionWords`: lower-case, split on whitespace runs, keep tokens of
length strictly greater than 2 (server.js line 131). -/
def serverQuestionWords (question : Str) : List Str :=
  (splitSeps isJsWs (lowerStr question)).filter (fun w => 2 < w.length)

/-- `questionPhrase`: the first `min(15, length)` characters of the
lower-cased question (server.js lines 154-157); `List.take` clamps exactly
as `substring` does. -/
def questionPhrase (question : Str) : Str := (lowerStr question).take 15

/-- Candidate sentence units of a document: split on `[.!?]+` runs, trim,
keep those longer than 20 characters (server.js lines 135-138). -/
def sentencesOf (content : Str) : List Str :=
  ((splitSeps isSentenceSep content).map trim).filter (fun s => 20 < s.length)

/-- Score and match count of one sentence (server.js lines 142-165):
+3 per keyword substring match, +10 if the sentence contains the question
phrase, and a +2 * matchCount bonus when any keyword matched. -/
def sentenceScore (qWords : List Str) (qPhrase : Str) (sentenceLower : Str) : Nat × Nat :=
  let base := qWords.foldl
    (fun (p : Nat × Nat) w => if isSubstr w sentenceLower then (p.1 + 3, p.2 + 1) else p)
    (0, 0)
  let s1 := if isSubstr qPhrase sentenceLower then base.1 + 10 else base.1
  let s2 := if 0 < base.2 then s1 + 2 * base.2 else s1
  (s2, base.2)

/-- The match record the server engine would push for a given sentence of a
given document (before the `score > 0` test). -/
def scoredUnitOf (qWords : List Str) (qPhrase : Str) (d : SDoc) (sentence : Str) : SMatch :=
  let p := sentenceScore qWords qPhrase (lowerStr sentence)
  { document := d.name
    excerpt := (trim sentence).take 300
    score := p.1
    matchCount := p.2 }

/-- All scored units, one per sentence per document, in source order. -/
def serverScoredUnits (question : Str) (docs : List SDoc) : List SMatch :=
  docs.flatMap fun d =>
    (sentencesOf d.content).map (scoredUnitOf (serverQuestionWords question) (questionPhrase question) d)

/-- `allMatches` before sorting: only units with positive score are pushed
(server.js lines 167-174). -/
def serverRawMatches (question : Str) (docs : List SDoc) : List SMatch :=
  docs.flatMap fun d =>
    (sentencesOf d.content).filterMap fun sentence =>
      let u := scoredUnitOf (serverQuestionWords question) (questionPhrase question) d sentence
      if 0 < u.score then some u else none

/-- Sort key of the server comparator `(a, b) => b.score - a.score`, ties
`b.matchCount - a.matchCount` (server.js lines 179-182). -/
def smatchKey (m : SMatch) : Nat × Nat := (m.score, m.matchCount)

/-- `allMatches` after the stable sort. -/
def serverAllMatches (question : Str) (docs : List SDoc) : List SMatch :=
  jsSort smatchKey (serverRawMatches question docs)

/-- The canned no-match answer of the server fallback engine. -/
def serverNoMatchMsg : Str :=
  strOf "I couldn" ++ [apos] ++
    strOf "t find specific information about your question in the uploaded documents."

/-- Result record of the server fallback engine. -/
structure FallbackResult where
  answer : Str
  sources : List SourceRec
  primaryDocument : Option Str
deriving DecidableEq

/-- `getAnswerFromDocuments` (server.js 129-206). -/
def getAnswerFromDocuments (question : Str) (docs : List SDoc) : FallbackResult :=
  let allMatches := serverAllMatches question docs
  match allMatches with
  | [] => { answer := serverNoMatchMsg, sources := [], primaryDocument := none }
  | best :: _ =>
    { answer := best.excerpt
      sources := (allMatches.take 3).map fun m => { document := m.document, excerpt := m.excerpt }
      primaryDocument := some best.document }

/-! ## Server document-store routes (server.js 83-126) -/

/-- `POST /api/upload` (server.js 106-126): the stored record gets
`id = uploadedDocuments.length + 1` and is appended. -/
def apiUpload (store : List SDoc) (name content : Str) (size : Nat) : List SDoc :=
  store ++ [{ id := store.length + 1, name := name, content := content, size := size }]

/-- `DELETE /api/documents/:id` (server.js 83-103): look the id up with
`findIndex`, answer 404 when absent, otherwise `splice` the record out and
answer 200.  (The `parseInt` of the route parameter and the best-effort
`fs.unlinkSync` of the stored file are outside the model.) -/
def apiDeleteDocument (docId : Nat) (store : List SDoc) : Nat × List SDoc :=
  match findIndex (fun d => d.id == docId) store with
  | none => (404, store)
  | some i => (200, store.eraseIdx i)

/-! ## Client engine (`findAnswerInDocuments`, PrivateQAAppPreview.jsx) -/

/-- The explicit client stop-word set. -/
def stopWords : List Str :=
  [strOf "what", strOf "where", strOf "when", strOf "who", strOf "how",
   strOf "does", strOf "this", strOf "that", strOf "with", strOf "from"]

/-- Punctuation removed by the client's `replace(/[?.,!]/g, '')`. -/
def isClientPunct (c : Char) : Bool := c = '?' || c = '.' || c = ',' || c = '!'

/-- Client keyword extraction: lower-case, strip `[?.,!]`, split on single
spaces, keep tokens longer than 3 characters that are not stop words. -/
def clientKeywords (query : Str) : List Str :=
  ((splitChar ' ' ((lowerStr query).filter (fun c => !isClientPunct c))).filter
    (fun w => 3 < w.length && !stopWords.contains w))

/-- Score of one chunk (client): per keyword, +1 for a substring match and
then + the number of whole-word matches when there are any. -/
def chunkScore (keywords : List Str) (lowerChunk : Str) : Nat :=
  keywords.foldl
    (fun s kw =>
      if isSubstr kw lowerChunk then
        let s1 := s + 1
        let n := wwCount kw lowerChunk
        if 0 < n then s1 + n else s1
      else s)
    0

/-- The chunk record pushed for a paragraph (before the `score > 0` test). -/
def scoredChunkOf (keywords : List Str) (d : CDoc) (chunk : Str) : CChunk :=
  { text := trim chunk, score := chunkScore keywords (lowerStr chunk), source := d.name }

/-- All scored chunks in source order. -/
def clientScoredChunks (keywords : List Str) (docs : List CDoc) : List CChunk :=
  docs.flatMap fun d => (splitParas d.content).map (scoredChunkOf keywords d)

/-- `relevantChunks` before sorting: only chunks with positive score. -/
def clientRawChunks (keywords : List Str) (docs : List CDoc) : List CChunk :=
  docs.flatMap fun d =>
    (splitParas d.content).filterMap fun chunk =>
      let c := scoredChunkOf keywords d chunk
      if 0 < c.score then some c else none

/-- `relevantChunks` after the stable sort by score alone
(`(a, b) => b.score - a.score`). -/
def clientSortedChunks (keywords : List Str) (docs : List CDoc) : List CChunk :=
  jsSort (fun c => (c.score, 0)) (clientRawChunks keywords docs)

/-- Client canned message for empty keyword lists. -/
def clientAskMoreMsg : Str :=
  strOf "Please ask a more specific question with keywords found in your documents."

/-- Client canned message when no chunk matches. -/
def clientNotFoundMsg : Str :=
  strOf "I couldn" ++ [apos] ++
    strOf "t find any information dealing with that in your uploaded documents."

/-- The fixed excerpt text the client attaches to every source. -/
def clientExcerptText : Str := strOf "Referenced in answer generation."

/-- Separator the client joins the top chunks with. -/
def clientAnswerSep : Str := strOf "\n\n...\n\n"

/-- Result record of the client engine. -/
structure ClientResult where
  answer : Str
  sources : List SourceRec
deriving DecidableEq

/-- `findAnswerInDocuments` (PrivateQAAppPreview.jsx 130-196). -/
def findAnswerInDocuments (query : Str) (docs : List CDoc) : ClientResult :=
  let keywords := clientKeywords query
  if keywords.isEmpty then
    { answer := clientAskMoreMsg, sources := [] }
  else
    let topChunks := (clientSortedChunks keywords docs).take 3
    if topChunks.isEmpty then
      { answer := clientNotFoundMsg, sources := [] }
    else
      { answer := List.intercalate clientAnswerSep (topChunks.map (·.text))
        sources := (dedupFirst (topChunks.map (·.source)) []).map
          fun n => { document := n, excerpt := clientExcerptText } }

/-- Client document deletion (`handleDeleteDocument`, confirmed case):
filter the id out of the stored list; absent ids leave it unchanged. -/
def handleDeleteDocument (docId : Str) (docs : List CDoc) : List CDoc :=
  docs.filter fun d => !(d.id == docId)

/-! ## Model-path source attribution and `/api/ask` (server.js 209-398) -/

/-- Keywords of the model path (server.js line 285): lower-case, split on
single spaces, keep tokens longer than 3 characters. -/
def modelQuestionWords (question : Str) : List Str :=
  (splitChar ' ' (lowerStr question)).filter (fun w => 3 < w.length)

/-- `doc.name.split(".")[0]`: the name up to the first dot. -/
def nameNoExt (name : Str) : Str := name.takeWhile (fun c => c ≠ '.')

/-- First pass of the attribution (server.js 288-302): collect into a `Map`
every document whose name — with or without extension — occurs in the
lower-cased answer. -/
def modelMentionedSet (answer : Str) (docs : List SDoc) : List (Str × SDoc) :=
  docs.foldl
    (fun m d =>
      if isSubstr (lowerStr d.name) (lowerStr answer)
          || isSubstr (lowerStr (nameNoExt d.name)) (lowerStr answer) then
        upsert m d.name d
      else m)
    []

/-- Keyword re-ranking scores (server.js 305-322): per document, two points
per whole-word occurrence of each question word in the lower-cased content;
only positive scores enter the object (keyed by name, insertion order). -/
def modelScoredDocs (qWords : List Str) (docs : List SDoc) : List (Str × (Nat × SDoc)) :=
  docs.foldl
    (fun m d =>
      let score := qWords.foldl (fun s w => s + 2 * wwCount w (lowerStr d.content)) 0
      if 0 < score then upsert m d.name (score, d) else m)
    []

/-- Second pass (server.js 324-332): sort the scored documents descending
and keep the top 3, re-inserted into the `Map`. -/
def modelRerankedSet (qWords : List Str) (docs : List SDoc) : List (Str × SDoc) :=
  ((jsSort (fun p => (p.2.1, 0)) (modelScoredDocs qWords docs)).take 3).foldl
    (fun m p => upsert m p.1 p.2.2) []

/-- Number of question words a sentence contains (the comparator of
server.js 348-357). -/
def sentenceWordMatches (qWords : List Str) (sentence : Str) : Nat :=
  (qWords.filter (fun w => isSubstr (lowerStr w) (lowerStr sentence))).length

/-- Excerpt extraction (server.js 334-365): for each selected document, the
keyword-bearing sentences sorted by how many question words they contain;
the best one, trimmed and cut to 250 characters, becomes the excerpt. -/
def modelSources (answer question : Str) (docs : List SDoc) : List SourceRec :=
  let qWords := modelQuestionWords question
  let mentioned := modelMentionedSet answer docs
  let finalSet := if mentioned.isEmpty then modelRerankedSet qWords docs else mentioned
  finalSet.filterMap fun p =>
    let relevant := (sentencesOf p.2.content).filter
      (fun s => qWords.any (fun w => isSubstr (lowerStr w) (lowerStr s)))
    match jsSort (fun s => (sentenceWordMatches qWords s, 0)) relevant with
    | [] => none
    | s0 :: _ => some { document := p.1, excerpt := (trim s0).take 250 }

/-- Outcome of the awaited OpenAI call together with the answer-extraction
statements that follow it inside the `try` block: `ok answer` when the call
returns and `message.choices[0].message.content` is a string, `failure` for
anything that throws (network, auth, quota, malformed response). -/
inductive ModelOutcome where
  | ok (answer : Str)
  | failure
deriving DecidableEq

/-- HTTP response of `POST /api/ask`; `success` is the 200 `res.json`
shape, `error` the `res.status(code).json({error})` shape.  Confidence is
recorded in hundredths (`95` for the code's `0.95`, `70` for `0.7`) to stay
within exact arithmetic. -/
inductive AskResponse where
  | error (status : Nat) (message : Str)
  | success (question answer : Str) (sources : List SourceRec)
      (confidencePct : Nat) (method : Str)
deriving DecidableEq

/-- The 500 message sent when the OpenAI client was never initialised. -/
def openaiNotInitMsg : Str :=
  strOf "OpenAI API not initialized. Please check your API key."

/-- `POST /api/ask` (server.js 209-398).  `modelAvailable` is whether the
`openai` client object exists; `outcome` abstracts the awaited remote call.
Note the `!openai` test answers 500 from inside the `try` block with a
plain `return`, so it does not reach the fallback `catch`. -/
def apiAsk (question : Str) (docs : List SDoc) (modelAvailable : Bool)
    (outcome : ModelOutcome) : AskResponse :=
  if question.isEmpty then .error 400 (strOf "Question is required")
  else if docs.isEmpty then .error 400 (strOf "No documents uploaded")
  else if !modelAvailable then .error 500 openaiNotInitMsg
  else
    match outcome with
    | .ok answer =>
      .success question answer ((modelSources answer question docs).take 3) 95 (strOf "openai")
    | .failure =>
      let fb := getAnswerFromDocuments question docs
      .success question fb.answer fb.sources 70 (strOf "fallback_search")

/-- Sources carried by a response (empty for error responses). -/
def responseSources : AskResponse → List SourceRec
  | .error _ _ => []
  | .success _ _ sources _ _ => sources

/-- Confidence carried by a response (hundredths; 0 for error responses). -/
def responseConfidence : AskResponse → Nat
  | .error _ _ => 0
  | .success _ _ _ c _ => c

/-- Method tag carried by a response (empty for error responses). -/
def responseMethod : AskResponse → Str
  | .error _ _ => []
  | .success _ _ _ _ m => m

/-! ## Auxiliary notions used by the theorems -/

/-- `IsSub x l`: `x` occurs contiguously inside `l` (the substring relation
of the spec's excerpt property). -/
def IsSub (x l : List Char) : Prop := ∃ s t, s ++ x ++ t = l

/-- The non-strict order a descending stable sort leaves behind: the later
element's key is not strictly greater than the earlier one's. -/
def geKey (key : α → Nat × Nat) (a b : α) : Prop := keyGt (key b) (key a) = false

/-! ## Concrete fixtures for witnesses and counterexamples -/

/-- A server document used by witnesses (the spec's §8 scenario document). -/
def sdocPolicy : SDoc :=
  { id := 1, name := strOf "policy.txt"
    content := strOf "Vacation requests must be submitted 2 weeks in advance. Approval is manager discretion."
    size := 88 }

/-- A server document containing the two-letter fragment "ab" inside a long
sentence. -/
def sdocAb : SDoc :=
  { id := 1, name := strOf "d.txt"
    content := strOf "this sentence has ab inside it anyway.", size := 38 }

/-- A client document with a single paragraph. -/
def cdocNotes : CDoc :=
  { id := strOf "1", name := strOf "notes.txt"
    content := strOf "alpha beta gamma delta epsilon", size := 30 }

/-- A client document whose two paragraphs tie on score but differ in how
many keywords they match. -/
def cdocTie : CDoc :=
  { id := strOf "1", name := strOf "n.txt"
    content := strOf "alpha alpha\n\nalpha zbetaax", size := 26 }

/-- The store reached by: upload `a.txt`, upload `b.txt`, delete id 1,
upload `c.txt` (`/api/upload` and `/api/documents/:id` in sequence). -/
def c2Store : List SDoc :=
  apiUpload (apiDeleteDocument 1 (apiUpload (apiUpload [] (strOf "a.txt") (strOf "aaa") 3)
    (strOf "b.txt") (strOf "bbb") 3)).2 (strOf "c.txt") (strOf "ccc") 3

/-- Number of distinct keywords a client chunk matches (the client analogue
of the server's `matchCount`; the client comparator never consults it). -/
def clientMatchCount (keywords : List Str) (c : CChunk) : Nat :=
  (keywords.filter (fun kw => isSubstr kw (lowerStr c.text))).length

/-- The excerpt record both server paths produce for `sdocPolicy` on the
question "vacation". -/
def srcPolicyExcerpt : SourceRec :=
  { document := strOf "policy.txt"
    excerpt := strOf "Vacation requests must be submitted 2 weeks in advance" }

/-! ## Lemmas about the sort model -/

theorem keyGt_iff {k1 k2 : Nat × Nat} :
    keyGt k1 k2 = true ↔ k2.1 < k1.1 ∨ (k1.1 = k2.1 ∧ k2.2 < k1.2) := by
  unfold keyGt
  split_ifs with h <;> simp [h]

theorem keyGt_eq_false_iff {k1 k2 : Nat × Nat} :
    keyGt k1 k2 = false ↔ k1.1 < k2.1 ∨ (k1.1 = k2.1 ∧ k1.2 ≤ k2.2) := by
  have h : keyGt k1 k2 = false ↔ ¬(keyGt k1 k2 = true) := by simp
  rw [h, keyGt_iff]
  omega

theorem keyGt_self (k : Nat × Nat) : keyGt k k = false := by
  rw [keyGt_eq_false_iff]; omega

theorem mem_insertStable {key : α → Nat × Nat} {a x : α} {l : List α} :
    x ∈ insertStable key a l ↔ x = a ∨ x ∈ l := by
  induction l with
  | nil => simp [insertStable]
  | cons b l ih =>
    by_cases h : keyGt (key a) (key b) <;> simp [insertStable, h, ih]
    tauto

theorem insertStable_perm (key : α → Nat × Nat) (a : α) (l : List α) :
    List.Perm (insertStable key a l) (a :: l) := by
  induction l with
  | nil => exact List.Perm.refl _
  | cons b l ih =>
    by_cases h : keyGt (key a) (key b)
    · simp [insertStable, h]
    · simp only [insertStable, h, if_neg, Bool.false_eq_true, not_false_eq_true]
      exact (ih.cons b).trans (List.Perm.swap a b l)

theorem insertStable_pairwise {key : α → Nat × Nat} {l : List α}
    (hl : l.Pairwise (geKey key)) (a : α) :
    (insertStable key a l).Pairwise (geKey key) := by
  induction l with
  | nil => simp [insertStable, geKey]
  | cons b l ih =>
    rw [List.pairwise_cons] at hl
    obtain ⟨hb, hl⟩ := hl
    by_cases h : keyGt (key a) (key b)
    · simp only [insertStable, h, if_pos]
      rw [List.pairwise_cons]
      refine ⟨?_, by rw [List.pairwise_cons]; exact ⟨hb, hl⟩⟩
      intro c hc
      rw [List.mem_cons] at hc
      rcases hc with rfl | hc
      · unfold geKey
        rw [keyGt_eq_false_iff]
        rw [keyGt_iff] at h
        omega
      · have hbc := hb c hc
        unfold geKey at hbc ⊢
        rw [keyGt_eq_false_iff] at hbc ⊢
        rw [keyGt_iff] at h
        omega
    · simp only [insertStable, h, if_neg, Bool.false_eq_true, not_false_eq_true]
      rw [List.pairwise_cons]
      refine ⟨?_, ih hl⟩
      intro c hc
      rcases mem_insertStable.mp hc with hc | hc
      · subst hc
        unfold geKey
        simpa using h
      · exact hb c hc

theorem insertStable_filter_pos {key : α → Nat × Nat} {k : Nat × Nat} {a : α} {l : List α}
    (hl : l.Pairwise (geKey key)) (hk : key a = k) :
    (insertStable key a l).filter (fun x => decide (key x = k))
      = l.filter (fun x => decide (key x = k)) ++ [a] := by
  induction l with
  | nil => simp [insertStable, hk]
  | cons b l ih =>
    rw [List.pairwise_cons] at hl
    obtain ⟨hb, hl⟩ := hl
    by_cases h : keyGt (key a) (key b)
    · simp only [insertStable, h, if_pos]
      have hbk : ¬(key b = k) := by
        intro habs
        rw [habs, ← hk, keyGt_self] at h
        exact Bool.false_ne_true h
      have hlk : ∀ c ∈ l, ¬(key c = k) := by
        intro c hc habs
        have hbc := hb c hc
        unfold geKey at hbc
        rw [habs, ← hk] at hbc
        rw [keyGt_eq_false_iff] at hbc
        rw [keyGt_iff] at h
        omega
      have hnil : (b :: l).filter (fun x => decide (key x = k)) = [] := by
        rw [List.filter_eq_nil_iff]
        intro c hc
        rw [List.mem_cons] at hc
        rcases hc with rfl | hc
        · simp [hbk]
        · simp [hlk c hc]
      rw [List.filter_cons_of_pos (by simp [hk]), hnil]
      rfl
    · simp only [insertStable, h, if_neg, Bool.false_eq_true, not_false_eq_true]
      by_cases hbk : key b = k
      · rw [List.filter_cons_of_pos (by simp [hbk]), List.filter_cons_of_pos (by simp [hbk]),
          ih hl, List.cons_append]
      · rw [List.filter_cons_of_neg (by simp [hbk]), List.filter_cons_of_neg (by simp [hbk]),
          ih hl]

theorem insertStable_filter_neg {key : α → Nat × Nat} {k : Nat × Nat} {a : α} {l : List α}
    (hk : ¬(key a = k)) :
    (insertStable key a l).filter (fun x => decide (key x = k))
      = l.filter (fun x => decide (key x = k)) := by
  induction l with
  | nil => simp [insertStable, hk]
  | cons b l ih =>
    by_cases h : keyGt (key a) (key b)
    · simp only [insertStable, h, if_pos]
      rw [List.filter_cons_of_neg (by simp [hk])]
    · simp only [insertStable, h, if_neg, Bool.false_eq_true, not_false_eq_true]
      by_cases hbk : key b = k
      · rw [List.filter_cons_of_pos (by simp [hbk]), List.filter_cons_of_pos (by simp [hbk]), ih]
      · rw [List.filter_cons_of_neg (by simp [hbk]), List.filter_cons_of_neg (by simp [hbk]), ih]

theorem sortAux_perm (key : α → Nat × Nat) :
    ∀ (l acc : List α),
      List.Perm (l.foldl (fun acc a => insertStable key a acc) acc) (acc ++ l) := by
  intro l
  induction l with
  | nil => intro acc; simp
  | cons a l ih =>
    intro acc
    have h1 : List.Perm (l.foldl (fun acc a => insertStable key a acc) (insertStable key a acc))
        (insertStable key a acc ++ l) := ih _
    have h2 : List.Perm (insertStable key a acc ++ l) ((a :: acc) ++ l) :=
      (insertStable_perm key a acc).append_right l
    have h3 : List.Perm ((a :: acc) ++ l) (acc ++ a :: l) := List.perm_middle.symm
    exact (h1.trans h2).trans h3

theorem sortAux_pairwise (key : α → Nat × Nat) :
    ∀ (l acc : List α), acc.Pairwise (geKey key) →
      (l.foldl (fun acc a => insertStable key a acc) acc).Pairwise (geKey key) := by
  intro l
  induction l with
  | nil => intro acc h; exact h
  | cons a l ih => intro acc h; exact ih _ (insertStable_pairwise h a)

theorem sortAux_filter (key : α → Nat × Nat) (k : Nat × Nat) :
    ∀ (l acc : List α), acc.Pairwise (geKey key) →
      (l.foldl (fun acc a => insertStable key a acc) acc).filter (fun x => decide (key x = k))
        = acc.filter (fun x => decide (key x = k)) ++ l.filter (fun x => decide (key x = k)) := by
  intro l
  induction l with
  | nil => intro acc _; simp
  | cons a l ih =>
    intro acc h
    show (l.foldl (fun acc a => insertStable key a acc) (insertStable key a acc)).filter _ = _
    rw [ih _ (insertStable_pairwise h a)]
    by_cases hk : key a = k
    · rw [insertStable_filter_pos h hk, List.filter_cons_of_pos (by simp [hk]),
        List.append_assoc, List.singleton_append]
    · rw [insertStable_filter_neg hk, List.filter_cons_of_neg (by simp [hk])]

theorem jsSort_perm (key : α → Nat × Nat) (l : List α) : List.Perm (jsSort key l) l := by
  simpa using sortAux_perm key l []

theorem jsSort_mem {key : α → Nat × Nat} {l : List α} {x : α} :
    x ∈ jsSort key l ↔ x ∈ l := (jsSort_perm key l).mem_iff

theorem jsSort_pairwise (key : α → Nat × Nat) (l : List α) :
    (jsSort key l).Pairwise (geKey key) :=
  sortAux_pairwise key l [] (List.Pairwise.nil)

theorem jsSort_filter (key : α → Nat × Nat) (k : Nat × Nat) (l : List α) :
    (jsSort key l).filter (fun x => decide (key x = k)) = l.filter (fun x => decide (key x = k)) := by
  simpa using sortAux_filter key k l [] (List.Pairwise.nil)

/-! ## Lemmas about substrings and the splitters -/

theorem isSub_trans {x y z : Str} (h1 : IsSub x y) (h2 : IsSub y z) : IsSub x z := by
  obtain ⟨s1, t1, h1⟩ := h1
  obtain ⟨s2, t2, h2⟩ := h2
  exact ⟨s2 ++ s1, t1 ++ t2, by rw [← h2, ← h1]; simp⟩

theorem take_isSub (n : Nat) (l : Str) : IsSub (l.take n) l :=
  ⟨[], l.drop n, by simp⟩

theorem dropWhile_decomp (p : Char → Bool) (l : Str) : ∃ t, t ++ l.dropWhile p = l := by
  induction l with
  | nil => exact ⟨[], rfl⟩
  | cons c l ih =>
    by_cases h : p c
    · obtain ⟨t, ht⟩ := ih
      exact ⟨c :: t, by simp [List.dropWhile, h, ht]⟩
    · exact ⟨[], by simp [List.dropWhile, h]⟩

theorem trimLeft_isSub (l : Str) : IsSub (trimLeft l) l := by
  obtain ⟨t, ht⟩ := dropWhile_decomp isJsWs l
  exact ⟨t, [], by simp [trimLeft, ht]⟩

theorem trimRight_isSub (l : Str) : IsSub (trimRight l) l := by
  obtain ⟨t, ht⟩ := dropWhile_decomp isJsWs l.reverse
  refine ⟨[], t.reverse, ?_⟩
  have := congrArg List.reverse ht
  simpa [trimRight] using this

theorem trim_isSub (l : Str) : IsSub (trim l) l :=
  isSub_trans (trimRight_isSub (trimLeft l)) (trimLeft_isSub l)

theorem splitSepsCore_isSub (p : Char → Bool) :
    ∀ (l : List Char) (inSep : Bool) (acc : List Char) (x : Str),
      x ∈ splitSepsCore p l inSep acc → IsSub x (acc.reverse ++ l) := by
  intro l
  induction l with
  | nil =>
    intro inSep acc x hx
    cases inSep <;> simp [splitSepsCore] at hx <;> subst hx
    · exact ⟨[], [], by simp⟩
    · exact ⟨acc.reverse, [], by simp⟩
  | cons c rest ih =>
    intro inSep acc x hx
    cases inSep with
    | true =>
      by_cases h : p c
      · simp [splitSepsCore, h] at hx
        have h1 := ih true [] x hx
        have h2 : IsSub rest (acc.reverse ++ c :: rest) := ⟨acc.reverse ++ [c], [], by simp⟩
        exact isSub_trans (by simpa using h1) h2
      · simp [splitSepsCore, h] at hx
        have h1 := ih false [c] x hx
        have h2 : IsSub (c :: rest) (acc.reverse ++ c :: rest) := ⟨acc.reverse, [], by simp⟩
        exact isSub_trans (by simpa using h1) h2
    | false =>
      by_cases h : p c
      · simp [splitSepsCore, h] at hx
        rcases hx with rfl | hx
        · exact ⟨[], c :: rest, by simp⟩
        · have h1 := ih true [] x hx
          have h2 : IsSub rest (acc.reverse ++ c :: rest) := ⟨acc.reverse ++ [c], [], by simp⟩
          exact isSub_trans (by simpa using h1) h2
      · simp [splitSepsCore, h] at hx
        have := ih false (c :: acc) x hx
        simpa using this

theorem splitSeps_isSub {p : Char → Bool} {l : Str} {x : Str}
    (hx : x ∈ splitSeps p l) : IsSub x l := by
  have := splitSepsCore_isSub p l false [] x hx
  simpa using this

theorem drop_isSub (n : Nat) (l : Str) : IsSub (l.drop n) l :=
  ⟨l.take n, [], by simp⟩

theorem splitParasFuel_isSub :
    ∀ (fuel : Nat) (l : List Char) (acc : List Char) (x : Str),
      x ∈ splitParasFuel fuel l acc → IsSub x (acc.reverse ++ l) := by
  intro fuel
  induction fuel with
  | zero =>
    intro l acc x hx
    simp [splitParasFuel] at hx
    subst hx
    exact ⟨[], l, by simp⟩
  | succ fuel ih =>
    intro l acc x hx
    match l with
    | [] =>
      simp [splitParasFuel] at hx
      subst hx
      exact ⟨[], [], by simp⟩
    | c :: rest =>
      by_cases h : c = '\n'
      · subst h
        match hj : lastIdxOf '\n' (rest.takeWhile isJsWs) with
        | some j =>
          simp [splitParasFuel, hj] at hx
          rcases hx with rfl | hx
          · exact ⟨[], '\n' :: rest, by simp⟩
          · have h1 := ih (rest.drop (j + 1)) [] x hx
            have h2 : IsSub (rest.drop (j + 1)) (acc.reverse ++ '\n' :: rest) := by
              obtain ⟨s, t, hst⟩ := drop_isSub (j + 1) rest
              refine ⟨acc.reverse ++ '\n' :: s, t, ?_⟩
              conv_rhs => rw [← hst]
              simp
            exact isSub_trans (by simpa using h1) h2
        | none =>
          simp [splitParasFuel, hj] at hx
          have := ih rest ('\n' :: acc) x hx
          simpa using this
      · simp [splitParasFuel, h] at hx
        have := ih rest (c :: acc) x hx
        simpa using this

theorem splitParas_isSub {l x : Str} (hx : x ∈ splitParas l) : IsSub x l := by
  have := splitParasFuel_isSub (l.length + 1) l [] x hx
  simpa using this

theorem sentencesOf_isSub {content s : Str} (hs : s ∈ sentencesOf content) :
    IsSub s content := by
  unfold sentencesOf at hs
  rw [List.mem_filter] at hs
  obtain ⟨hs, _⟩ := hs
  rw [List.mem_map] at hs
  obtain ⟨piece, hpiece, rfl⟩ := hs
  exact isSub_trans (trim_isSub piece) (splitSeps_isSub hpiece)

theorem isPrefixOf_append_self (x t : List Char) : x.isPrefixOf (x ++ t) = true := by
  induction x with
  | nil => simp [List.isPrefixOf]
  | cons c x ih => simp [List.isPrefixOf, ih]

theorem isSubstr_append_self (x t : List Char) : isSubstr x (x ++ t) = true := by
  match x with
  | [] =>
    match t with
    | [] => rfl
    | c :: t => simp [isSubstr, List.isPrefixOf]
  | c :: x' =>
    rw [List.cons_append]
    simp [isSubstr, List.isPrefixOf, isPrefixOf_append_self]

theorem isSubstr_of_isSub {x l : Str} (h : IsSub x l) : isSubstr x l = true := by
  obtain ⟨s, t, rfl⟩ := h
  induction s with
  | nil => simpa using isSubstr_append_self x t
  | cons c s ih =>
    simp only [List.cons_append]
    simp only [List.append_assoc] at ih
    simp [isSubstr, ih]

/-! ## Lemmas about the list helpers -/

theorem dedupFirst_length_le [DecidableEq α] :
    ∀ (l seen : List α), (dedupFirst l seen).length ≤ l.length := by
  intro l
  induction l with
  | nil => intro seen; simp [dedupFirst]
  | cons a l ih =>
    intro seen
    by_cases h : a ∈ seen
    · simp only [dedupFirst, h, if_pos]
      exact Nat.le_trans (ih seen) (Nat.le_succ _)
    · simp only [dedupFirst, h, if_neg, not_false_eq_true, List.length_cons]
      exact Nat.succ_le_succ (ih (a :: seen))

theorem dedupFirst_not_mem_seen [DecidableEq α] :
    ∀ (l seen : List α) (x : α), x ∈ dedupFirst l seen → x ∉ seen := by
  intro l
  induction l with
  | nil => intro seen x hx; simp [dedupFirst] at hx
  | cons a l ih =>
    intro seen x hx
    by_cases h : a ∈ seen
    · rw [dedupFirst, if_pos h] at hx
      exact ih seen x hx
    · rw [dedupFirst, if_neg h] at hx
      rw [List.mem_cons] at hx
      rcases hx with rfl | hx
      · exact h
      · intro hxs
        exact ih (a :: seen) x hx (List.mem_cons_of_mem a hxs)

theorem dedupFirst_nodup [DecidableEq α] :
    ∀ (l seen : List α), (dedupFirst l seen).Nodup := by
  intro l
  induction l with
  | nil => intro seen; simp [dedupFirst]
  | cons a l ih =>
    intro seen
    by_cases h : a ∈ seen
    · rw [dedupFirst, if_pos h]
      exact ih seen
    · rw [dedupFirst, if_neg h]
      rw [List.nodup_cons]
      refine ⟨?_, ih (a :: seen)⟩
      intro ha
      exact dedupFirst_not_mem_seen l (a :: seen) a ha (List.mem_cons_self a seen)

theorem findIndex_eq_none {p : α → Bool} :
    ∀ {l : List α}, (∀ a ∈ l, p a = false) → findIndex p l = none := by
  intro l
  induction l with
  | nil => intro _; rfl
  | cons a l ih =>
    intro h
    rw [findIndex, if_neg (by simp [h a (List.mem_cons_self a l)]), ih]
    · rfl
    · intro b hb
      exact h b (List.mem_cons_of_mem a hb)

theorem mem_of_take {l : List α} {n : Nat} {x : α} (h : x ∈ l.take n) : x ∈ l := by
  rw [← List.take_append_drop n l]
  exact List.mem_append_left _ h

theorem mem_upsert {β : Type} {m : List (Str × β)} {k : Str} {v : β} {q : Str × β}
    (h : q ∈ upsert m k v) : q = (k, v) ∨ q ∈ m := by
  induction m with
  | nil => simpa [upsert] using h
  | cons p m ih =>
    rw [upsert] at h
    by_cases hk : p.1 = k
    · rw [if_pos hk, List.mem_cons] at h
      rcases h with rfl | h
      · left; rfl
      · right; exact List.mem_cons_of_mem _ h
    · rw [if_neg hk, List.mem_cons] at h
      rcases h with rfl | h
      · right; exact List.mem_cons_self _ _
      · rcases ih h with h | h
        · left; exact h
        · right; exact List.mem_cons_of_mem _ h

theorem foldl_inv_forall {δ γ : Type} (P : δ → Prop) (step : δ → γ → δ) :
    ∀ (l : List γ), (∀ m d, d ∈ l → P m → P (step m d)) → ∀ m, P m → P (l.foldl step m) := by
  intro l
  induction l with
  | nil => intro _ m hm; exact hm
  | cons d l ih =>
    intro hstep m hm
    exact ih (fun m' d' hd' hm' => hstep m' d' (List.mem_cons_of_mem d hd') hm') _
      (hstep m d (List.mem_cons_self d l) hm)

theorem filterMap_scoreGuard {β γ : Type} (g : β → γ) (sc : γ → Nat) :
    ∀ l : List β,
      (l.filterMap fun b => if 0 < sc (g b) then some (g b) else none)
        = (l.map g).filter (fun u => decide (0 < sc u)) := by
  intro l
  induction l with
  | nil => rfl
  | cons b l ih =>
    by_cases h : 0 < sc (g b) <;>
      simp [List.filterMap_cons, List.filter_cons, h, ih]

/-! ## Structural lemmas about the two engines -/

theorem serverRawMatches_eq (question : Str) (docs : List SDoc) :
    serverRawMatches question docs
      = (serverScoredUnits question docs).filter (fun u => decide (0 < u.score)) := by
  unfold serverRawMatches serverScoredUnits
  induction docs with
  | nil => rfl
  | cons d docs ih =>
    rw [List.flatMap_cons, List.flatMap_cons, List.filter_append, ih]
    congr 1
    exact filterMap_scoreGuard _ SMatch.score _

theorem clientRawChunks_eq (keywords : List Str) (docs : List CDoc) :
    clientRawChunks keywords docs
      = (clientScoredChunks keywords docs).filter (fun c => decide (0 < c.score)) := by
  unfold clientRawChunks clientScoredChunks
  induction docs with
  | nil => rfl
  | cons d docs ih =>
    rw [List.flatMap_cons, List.flatMap_cons, List.filter_append, ih]
    congr 1
    exact filterMap_scoreGuard _ CChunk.score _

theorem serverAllMatches_spec {question : Str} {docs : List SDoc} {m : SMatch}
    (hm : m ∈ serverAllMatches question docs) :
    ∃ d ∈ docs, m.document = d.name ∧ IsSub m.excerpt d.content ∧ m.excerpt.length ≤ 300 := by
  rw [serverAllMatches, jsSort_mem] at hm
  unfold serverRawMatches at hm
  rw [List.mem_flatMap] at hm
  obtain ⟨d, hd, hm⟩ := hm
  rw [List.mem_filterMap] at hm
  obtain ⟨sentence, hs, hsome⟩ := hm
  refine ⟨d, hd, ?_⟩
  by_cases hpos : 0 < (scoredUnitOf (serverQuestionWords question) (questionPhrase question) d sentence).score
  · simp only [hpos, if_pos, Option.some.injEq] at hsome
    subst hsome
    refine ⟨rfl, ?_, ?_⟩
    · exact isSub_trans (take_isSub 300 (trim sentence))
        (isSub_trans (trim_isSub sentence) (sentencesOf_isSub hs))
    · show ((trim sentence).take 300).length ≤ 300
      rw [List.length_take]
      exact Nat.min_le_left _ _
  · simp only [hpos, if_neg, not_false_eq_true] at hsome
    exact absurd hsome (by simp)

theorem modelMentionedSet_values {ans : Str} {docs : List SDoc} :
    ∀ pr ∈ modelMentionedSet ans docs, pr.2 ∈ docs := by
  unfold modelMentionedSet
  refine foldl_inv_forall (fun (m : List (Str × SDoc)) => ∀ pr ∈ m, pr.2 ∈ docs) _ docs ?_ []
    (fun pr hpr => absurd hpr (List.not_mem_nil pr))
  intro m d hd hm pr hpr
  by_cases hcond : (isSubstr (lowerStr d.name) (lowerStr ans)
      || isSubstr (lowerStr (nameNoExt d.name)) (lowerStr ans)) = true
  · rw [if_pos hcond] at hpr
    rcases mem_upsert hpr with rfl | hpr
    · exact hd
    · exact hm pr hpr
  · rw [if_neg hcond] at hpr
    exact hm pr hpr

theorem modelScoredDocs_values {qWords : List Str} {docs : List SDoc} :
    ∀ pr ∈ modelScoredDocs qWords docs, pr.2.2 ∈ docs := by
  unfold modelScoredDocs
  refine foldl_inv_forall (fun (m : List (Str × (Nat × SDoc))) => ∀ pr ∈ m, pr.2.2 ∈ docs) _ docs ?_ []
    (fun pr hpr => absurd hpr (List.not_mem_nil pr))
  intro m d hd hm pr hpr
  by_cases hcond : 0 < qWords.foldl (fun s w => s + 2 * wwCount w (lowerStr d.content)) 0
  · rw [if_pos hcond] at hpr
    rcases mem_upsert hpr with rfl | hpr
    · exact hd
    · exact hm pr hpr
  · rw [if_neg hcond] at hpr
    exact hm pr hpr

theorem modelRerankedSet_values {qWords : List Str} {docs : List SDoc} :
    ∀ pr ∈ modelRerankedSet qWords docs, pr.2 ∈ docs := by
  unfold modelRerankedSet
  refine foldl_inv_forall (fun (m : List (Str × SDoc)) => ∀ pr ∈ m, pr.2 ∈ docs) _ _ ?_ []
    (fun pr hpr => absurd hpr (List.not_mem_nil pr))
  intro m p hp hm pr hpr
  rcases mem_upsert hpr with rfl | hpr
  · exact modelScoredDocs_values p (jsSort_mem.mp (mem_of_take hp))
  · exact hm pr hpr

theorem modelSources_spec {ans question : Str} {docs : List SDoc} {s : SourceRec}
    (hs : s ∈ modelSources ans question docs) :
    ∃ d ∈ docs, IsSub s.excerpt d.content ∧ s.excerpt.length ≤ 250 := by
  unfold modelSources at hs
  simp only [List.mem_filterMap] at hs
  obtain ⟨pr, hpr, hsome⟩ := hs
  have hprdocs : pr.2 ∈ docs := by
    split at hpr
    · exact modelRerankedSet_values pr hpr
    · exact modelMentionedSet_values pr hpr
  split at hsome
  · exact absurd hsome (by simp)
  next s0 tail heq =>
    rw [Option.some.injEq] at hsome
    subst hsome
    have hs0 : s0 ∈ sentencesOf pr.2.content := by
      have hmem : s0 ∈ s0 :: tail := List.mem_cons_self _ _
      rw [← heq, jsSort_mem, List.mem_filter] at hmem
      exact hmem.1
    refine ⟨pr.2, hprdocs, ?_, ?_⟩
    · exact isSub_trans (take_isSub 250 (trim s0))
        (isSub_trans (trim_isSub s0) (sentencesOf_isSub hs0))
    · show ((trim s0).take 250).length ≤ 250
      rw [List.length_take]
      exact Nat.min_le_left _ _

theorem client_sources_excerpt {query : Str} {docs : List CDoc} {s : SourceRec}
    (hs : s ∈ (findAnswerInDocuments query docs).sources) : s.excerpt = clientExcerptText := by
  unfold findAnswerInDocuments at hs
  by_cases h1 : (clientKeywords query).isEmpty
  · simp [h1] at hs
  · by_cases h2 : ((clientSortedChunks (clientKeywords query) docs).take 3).isEmpty
    · simp [h1, h2] at hs
    · simp [h1, h2] at hs
      obtain ⟨n, _, rfl⟩ := hs
      rfl

/-! ## Claim C1 -/

/-- C1 counterexample: with a non-empty question and a non-empty store, an
unavailable model client (the `!openai` guard) answers a 500 error response,
not a fallback success — the claim's "no such failure ever surfaces as an
error response" is false for that failure kind. -/
theorem C1_counterexample :
    apiAsk (strOf "hello there") [sdocPolicy] false ModelOutcome.failure
      = AskResponse.error 500 openaiNotInitMsg := by decide

/-- C1 (amended): for a non-empty question and non-empty store, a *thrown*
failure of the remote call (network, auth, quota, malformed response) yields
the fallback 200 success built by `getAnswerFromDocuments`, tagged
`fallback_search` with confidence 0.70, strictly below the model path's 0.95
and with a distinct method tag; but when the model client is unavailable the
handler returns a 500 error instead. -/
theorem C1_model_failure_falls_back (q : Str) (docs : List SDoc) (a : Str)
    (hq : q ≠ []) (hd : docs ≠ []) :
    apiAsk q docs true ModelOutcome.failure
        = AskResponse.success q (getAnswerFromDocuments q docs).answer
            (getAnswerFromDocuments q docs).sources 70 (strOf "fallback_search")
    ∧ responseConfidence (apiAsk q docs true ModelOutcome.failure)
        < responseConfidence (apiAsk q docs true (ModelOutcome.ok a))
    ∧ responseMethod (apiAsk q docs true ModelOutcome.failure)
        ≠ responseMethod (apiAsk q docs true (ModelOutcome.ok a)) := by
  have hq' : q.isEmpty = false := by
    cases q with
    | nil => exact absurd rfl hq
    | cons c l => rfl
  have hd' : docs.isEmpty = false := by
    cases docs with
    | nil => exact absurd rfl hd
    | cons d l => rfl
  refine ⟨?_, ?_, ?_⟩
  · simp [apiAsk, hq', hd']
  · simp [apiAsk, hq', hd', responseConfidence]
  · simp only [apiAsk, hq', hd', Bool.false_eq_true, if_false, Bool.not_true,
      responseMethod]
    decide

/-- C1 witness. -/
theorem C1_witness :
    apiAsk (strOf "vacation") [sdocPolicy] true ModelOutcome.failure
        = AskResponse.success (strOf "vacation")
            (getAnswerFromDocuments (strOf "vacation") [sdocPolicy]).answer
            (getAnswerFromDocuments (strOf "vacation") [sdocPolicy]).sources
            70 (strOf "fallback_search")
    ∧ responseConfidence (apiAsk (strOf "vacation") [sdocPolicy] true ModelOutcome.failure)
        < responseConfidence (apiAsk (strOf "vacation") [sdocPolicy] true
            (ModelOutcome.ok (strOf "hi")))
    ∧ responseMethod (apiAsk (strOf "vacation") [sdocPolicy] true ModelOutcome.failure)
        ≠ responseMethod (apiAsk (strOf "vacation") [sdocPolicy] true
            (ModelOutcome.ok (strOf "hi"))) :=
  C1_model_failure_falls_back (strOf "vacation") [sdocPolicy] (strOf "hi")
    (by decide) (by decide)

/-! ## Claim C2 -/

/-- C2: uploading twice, deleting id 1 and uploading again leaves the store
with two documents both carrying id 2, because `/api/upload` assigns
`id = uploadedDocuments.length + 1`.  The spec's uniqueness invariant for
`Document.id` is right and this assignment is the slip. -/
theorem C2_duplicate_ids_after_delete :
    c2Store.map (fun d => d.id) = [2, 2] ∧ ¬ (c2Store.map (fun d => d.id)).Nodup := by
  decide

/-! ## Claim C3 -/

/-- C3 counterexample: the server variant has no empty-keyword guard.  For
the question "ab" every token is discarded (length ≤ 2 and a fortiori ≤ 3),
yet the engine still returns a non-empty sources list via the literal-phrase
bonus, and its answer is not the "ask more specifically" message. -/
theorem C3_counterexample :
    serverQuestionWords (strOf "ab") = []
    ∧ (getAnswerFromDocuments (strOf "ab") [sdocAb]).sources ≠ []
    ∧ (getAnswerFromDocuments (strOf "ab") [sdocAb]).answer ≠ clientAskMoreMsg := by
  decide

/-- C3 (amended): only the client variant returns the fixed "ask more
specifically" answer with empty sources when every token is discarded; the
server variant, which lacks the guard, returns its distinct "couldn't find"
answer with empty sources only when no sentence scores positive. -/
theorem C3_empty_keyword_behaviour (q : Str) (docs : List CDoc) (sq : Str) (sdocs : List SDoc)
    (hc : clientKeywords q = []) (hm : serverAllMatches sq sdocs = []) :
    findAnswerInDocuments q docs = { answer := clientAskMoreMsg, sources := [] }
    ∧ getAnswerFromDocuments sq sdocs
        = { answer := serverNoMatchMsg, sources := [], primaryDocument := none } := by
  constructor
  · unfold findAnswerInDocuments
    simp [hc]
  · unfold getAnswerFromDocuments
    simp [hm]

/-- C3 witness. -/
theorem C3_witness :
    findAnswerInDocuments (strOf "what is it") [cdocNotes]
        = { answer := clientAskMoreMsg, sources := [] }
    ∧ getAnswerFromDocuments (strOf "zz qq") [sdocAb]
        = { answer := serverNoMatchMsg, sources := [], primaryDocument := none } :=
  C3_empty_keyword_behaviour (strOf "what is it") [cdocNotes] (strOf "zz qq") [sdocAb]
    (by decide) (by decide)

/-! ## Claim C4 -/

/-- C4 counterexample: the client variant's source excerpts are the fixed
placeholder "Referenced in answer generation.", which is not a substring of
the stored document's content. -/
theorem C4_counterexample :
    (findAnswerInDocuments (strOf "alpha") [cdocNotes]).sources
        = [{ document := strOf "notes.txt", excerpt := clientExcerptText }]
    ∧ isSubstr clientExcerptText cdocNotes.content = false := by
  decide

/-- C4 (amended): on the server, every excerpt in a result's sources is a
substring of some stored document's content, truncated to at most 300
characters on the fallback path and 250 on the model path; the client
variant instead attaches the fixed placeholder text as every excerpt. -/
theorem C4_excerpt_bounds (q : Str) (docs : List SDoc) (ans : Str)
    (cq : Str) (cdocs : List CDoc) :
    (∀ s ∈ (getAnswerFromDocuments q docs).sources,
        ∃ d ∈ docs, s.document = d.name ∧ isSubstr s.excerpt d.content = true
          ∧ s.excerpt.length ≤ 300)
    ∧ (∀ s ∈ modelSources ans q docs,
        ∃ d ∈ docs, isSubstr s.excerpt d.content = true ∧ s.excerpt.length ≤ 250)
    ∧ (∀ s ∈ (findAnswerInDocuments cq cdocs).sources, s.excerpt = clientExcerptText) := by
  refine ⟨?_, ?_, fun s hs => client_sources_excerpt hs⟩
  · intro s hs
    unfold getAnswerFromDocuments at hs
    cases h : serverAllMatches q docs with
    | nil => simp [h] at hs
    | cons best tail =>
      simp only [h] at hs
      rw [List.mem_map] at hs
      obtain ⟨m, hm, rfl⟩ := hs
      have hmm : m ∈ serverAllMatches q docs := by
        rw [h]; exact mem_of_take hm
      obtain ⟨d, hd, hdoc, hsub, hlen⟩ := serverAllMatches_spec hmm
      exact ⟨d, hd, hdoc, isSubstr_of_isSub hsub, hlen⟩
  · intro s hs
    obtain ⟨d, hd, hsub, hlen⟩ := modelSources_spec hs
    exact ⟨d, hd, isSubstr_of_isSub hsub, hlen⟩

/-- C4 witness. -/
theorem C4_witness :
    (∃ d ∈ [sdocPolicy], srcPolicyExcerpt.document = d.name
        ∧ isSubstr srcPolicyExcerpt.excerpt d.content = true
        ∧ srcPolicyExcerpt.excerpt.length ≤ 300)
    ∧ (∃ d ∈ [sdocPolicy], isSubstr srcPolicyExcerpt.excerpt d.content = true
        ∧ srcPolicyExcerpt.excerpt.length ≤ 250)
    ∧ ({ document := strOf "notes.txt", excerpt := clientExcerptText } : SourceRec).excerpt
        = clientExcerptText :=
  ⟨(C4_excerpt_bounds (strOf "vacation") [sdocPolicy]
      (strOf "According to policy.txt: stuff") (strOf "alpha") [cdocNotes]).1
      srcPolicyExcerpt (by decide),
   (C4_excerpt_bounds (strOf "vacation") [sdocPolicy]
      (strOf "According to policy.txt: stuff") (strOf "alpha") [cdocNotes]).2.1
      srcPolicyExcerpt (by decide),
   (C4_excerpt_bounds (strOf "vacation") [sdocPolicy]
      (strOf "According to policy.txt: stuff") (strOf "alpha") [cdocNotes]).2.2
      { document := strOf "notes.txt", excerpt := clientExcerptText } (by decide)⟩

/-! ## Claim C5 -/

/-- C5: for every question, document set and model outcome, the sources list
has at most 3 entries — on the server fallback engine, on any `/api/ask`
response (model path included), and on the client engine. -/
theorem C5_sources_at_most_three (q : Str) (docs : List SDoc) (cq : Str) (cdocs : List CDoc)
    (avail : Bool) (outcome : ModelOutcome) :
    (getAnswerFromDocuments q docs).sources.length ≤ 3
    ∧ (findAnswerInDocuments cq cdocs).sources.length ≤ 3
    ∧ (responseSources (apiAsk q docs avail outcome)).length ≤ 3 := by
  have hserver : ∀ (q' : Str) (docs' : List SDoc),
      (getAnswerFromDocuments q' docs').sources.length ≤ 3 := by
    intro q' docs'
    unfold getAnswerFromDocuments
    cases h : serverAllMatches q' docs' with
    | nil => simp
    | cons best tail =>
      simp only [h, List.length_map, List.length_take]
      omega
  refine ⟨hserver q docs, ?_, ?_⟩
  · by_cases h1 : (clientKeywords cq).isEmpty
    · simp [findAnswerInDocuments, h1]
    · by_cases h2 : ((clientSortedChunks (clientKeywords cq) cdocs).take 3).isEmpty
      · simp [findAnswerInDocuments, h1, h2]
      · simp only [findAnswerInDocuments, h1, h2, Bool.false_eq_true, if_false,
          List.length_map]
        refine Nat.le_trans (dedupFirst_length_le _ _) ?_
        rw [List.length_map, List.length_take]
        omega
  · by_cases hq : q.isEmpty
    · simp [apiAsk, hq, responseSources]
    · by_cases hd : docs.isEmpty
      · simp [apiAsk, hq, hd, responseSources]
      · cases avail with
        | false => simp [apiAsk, hq, hd, responseSources]
        | true =>
          cases outcome with
          | ok a =>
            simp only [apiAsk, hq, hd, Bool.false_eq_true, if_false, Bool.not_true,
              responseSources, List.length_take]
            omega
          | failure =>
            simp only [apiAsk, hq, hd, Bool.false_eq_true, if_false, Bool.not_true,
              responseSources]
            exact hserver q docs

/-! ## Claim C6 -/

/-- C6 counterexample: the server tokenizer keeps tokens of length 3 (its
filter is `length > 2`), so the length-3 token "cat" is used as a keyword,
contradicting "no token of length 3 or less is ever used". -/
theorem C6_counterexample :
    strOf "cat" ∈ serverQuestionWords (strOf "cat") ∧ (strOf "cat").length = 3 := by
  decide

/-- C6 (amended): both tokenizers lower-case and split the question, but the
server variant splits on whitespace runs and discards only tokens of length
≤ 2 (length-3 tokens survive, and no stop-word set is applied), while the
client variant strips `[?.,!]`, splits on single spaces, and discards tokens
of length ≤ 3 and the ten stop words. -/
theorem C6_token_filters (q w : Str) :
    (w ∈ serverQuestionWords q → 2 < w.length ∧ w ∈ splitSeps isJsWs (lowerStr q))
    ∧ (w ∈ clientKeywords q → 3 < w.length ∧ w ∉ stopWords
        ∧ w ∈ splitChar ' ' ((lowerStr q).filter (fun c => !isClientPunct c))) := by
  constructor
  · intro hw
    rw [serverQuestionWords, List.mem_filter] at hw
    exact ⟨by simpa using hw.2, hw.1⟩
  · intro hw
    rw [clientKeywords, List.mem_filter] at hw
    obtain ⟨hmem, hcond⟩ := hw
    rw [Bool.and_eq_true] at hcond
    refine ⟨by simpa using hcond.1, ?_, hmem⟩
    intro hws
    have : stopWords.contains w = true := List.elem_eq_true_of_mem hws
    rw [this] at hcond
    exact absurd hcond.2 (by simp)

/-- C6 witness. -/
theorem C6_witness :
    (2 < (strOf "the").length ∧ strOf "the" ∈ splitSeps isJsWs (lowerStr (strOf "the cat")))
    ∧ (3 < (strOf "color").length ∧ strOf "color" ∉ stopWords
        ∧ strOf "color" ∈ splitChar ' '
            ((lowerStr (strOf "what color is it?")).filter (fun c => !isClientPunct c))) :=
  ⟨(C6_token_filters (strOf "the cat") (strOf "the")).1 (by decide),
   (C6_token_filters (strOf "what color is it?") (strOf "color")).2 (by decide)⟩

/-! ## Claim C7 -/

/-- C7 counterexample: the client comparator sorts by score alone, so for
the question "alpha betaa" over `cdocTie` the two chunks tie at score 3 and
stay in document order even though the second matches strictly more
keywords — the claimed match-count tie-break does not hold for the client
variant. -/
theorem C7_counterexample :
    ¬ (clientSortedChunks (clientKeywords (strOf "alpha betaa")) [cdocTie]).Pairwise
        (fun a b => b.score < a.score ∨ (a.score = b.score
          ∧ clientMatchCount (clientKeywords (strOf "alpha betaa")) b
              ≤ clientMatchCount (clientKeywords (strOf "alpha betaa")) a)) := by
  decide

/-- C7 (amended): both engines keep exactly the candidate units with
positive score and sort stably (exact-key runs keep their original order);
the server orders by score descending with ties broken by match count
descending, while the client orders by score descending only. -/
theorem C7_ranking (q : Str) (docs : List SDoc) (kws : List Str) (cdocs : List CDoc) :
    List.Perm (serverAllMatches q docs)
        ((serverScoredUnits q docs).filter (fun u => decide (0 < u.score)))
    ∧ (serverAllMatches q docs).Pairwise (fun a b =>
        b.score < a.score ∨ (a.score = b.score ∧ b.matchCount ≤ a.matchCount))
    ∧ (∀ k : Nat × Nat, (serverAllMatches q docs).filter (fun m => decide (smatchKey m = k))
        = (serverRawMatches q docs).filter (fun m => decide (smatchKey m = k)))
    ∧ List.Perm (clientSortedChunks kws cdocs)
        ((clientScoredChunks kws cdocs).filter (fun c => decide (0 < c.score)))
    ∧ (clientSortedChunks kws cdocs).Pairwise (fun a b => b.score ≤ a.score)
    ∧ (∀ s : Nat, (clientSortedChunks kws cdocs).filter (fun c => decide (c.score = s))
        = (clientRawChunks kws cdocs).filter (fun c => decide (c.score = s))) := by
  refine ⟨?_, ?_, ?_, ?_, ?_, ?_⟩
  · rw [← serverRawMatches_eq, serverAllMatches]
    exact jsSort_perm smatchKey _
  · refine (jsSort_pairwise smatchKey _).imp ?_
    intro a b hab
    unfold geKey at hab
    rw [keyGt_eq_false_iff] at hab
    rcases hab with h | h
    · left; exact h
    · right; exact ⟨h.1.symm, h.2⟩
  · intro k
    rw [serverAllMatches]
    exact jsSort_filter smatchKey k _
  · rw [← clientRawChunks_eq, clientSortedChunks]
    exact jsSort_perm _ _
  · refine (jsSort_pairwise (fun c : CChunk => (c.score, 0)) _).imp ?_
    intro a b hab
    unfold geKey at hab
    rw [keyGt_eq_false_iff] at hab
    simp only at hab
    omega
  · intro s
    have h1 : (clientSortedChunks kws cdocs).filter (fun c => decide (c.score = s))
        = (clientSortedChunks kws cdocs).filter
            (fun c => decide ((fun c : CChunk => (c.score, 0)) c = (s, 0))) := by
      apply List.filter_congr
      intro x _
      simp [Prod.ext_iff]
    have h2 : (clientRawChunks kws cdocs).filter
          (fun c => decide ((fun c : CChunk => (c.score, 0)) c = (s, 0)))
        = (clientRawChunks kws cdocs).filter (fun c => decide (c.score = s)) := by
      apply List.filter_congr
      intro x _
      simp [Prod.ext_iff]
    rw [h1, clientSortedChunks, jsSort_filter, h2]

/-! ## Claim C8 -/

/-- C8: both engines are pure functions — identical (question, documents)
inputs always give identical ranked output, for the server fallback engine
and for the client engine. -/
theorem C8_determinism (q1 q2 : Str) (d1 d2 : List SDoc) (cq1 cq2 : Str) (cd1 cd2 : List CDoc)
    (hq : q1 = q2) (hd : d1 = d2) (hcq : cq1 = cq2) (hcd : cd1 = cd2) :
    getAnswerFromDocuments q1 d1 = getAnswerFromDocuments q2 d2
    ∧ findAnswerInDocuments cq1 cd1 = findAnswerInDocuments cq2 cd2 := by
  subst hq; subst hd; subst hcq; subst hcd
  exact ⟨rfl, rfl⟩

/-- C8 witness. -/
theorem C8_witness :
    getAnswerFromDocuments (strOf "vacation") [sdocPolicy]
        = getAnswerFromDocuments (strOf "vacation") [sdocPolicy]
    ∧ findAnswerInDocuments (strOf "alpha") [cdocNotes]
        = findAnswerInDocuments (strOf "alpha") [cdocNotes] :=
  C8_determinism (strOf "vacation") (strOf "vacation") [sdocPolicy] [sdocPolicy]
    (strOf "alpha") (strOf "alpha") [cdocNotes] [cdocNotes] rfl rfl rfl rfl

/-! ## Claim C9 -/

/-- C9: deleting an id that no stored document carries leaves the store
unchanged in both variants and raises nothing past the boundary — the
server route answers a plain 404 response, the client filter is the
identity. -/
theorem C9_delete_idempotent (docId : Nat) (store : List SDoc) (cid : Str) (cdocs : List CDoc)
    (h1 : ∀ d ∈ store, d.id ≠ docId) (h2 : ∀ d ∈ cdocs, d.id ≠ cid) :
    apiDeleteDocument docId store = (404, store)
    ∧ handleDeleteDocument cid cdocs = cdocs := by
  constructor
  · rw [apiDeleteDocument, findIndex_eq_none]
    intro d hd
    simpa using h1 d hd
  · rw [handleDeleteDocument]
    rw [List.filter_eq_self]
    intro d hd
    simpa using h2 d hd

/-- C9 witness. -/
theorem C9_witness :
    apiDeleteDocument 7 [sdocPolicy] = (404, [sdocPolicy])
    ∧ handleDeleteDocument (strOf "x") [cdocNotes] = [cdocNotes] :=
  C9_delete_idempotent 7 [sdocPolicy] (strOf "x") [cdocNotes] (by decide) (by decide)

/-! ## Claim C10 -/

/-- C10: the client result's sources carry pairwise-distinct document names
(`[...new Set(...)]` deduplicates before the source records are built), so a
document contributing several top chunks is listed once. -/
theorem C10_client_source_names_nodup (query : Str) (docs : List CDoc) :
    ((findAnswerInDocuments query docs).sources.map (fun s => s.document)).Nodup := by
  by_cases h1 : (clientKeywords query).isEmpty
  · simp [findAnswerInDocuments, h1]
  · by_cases h2 : ((clientSortedChunks (clientKeywords query) docs).take 3).isEmpty
    · simp [findAnswerInDocuments, h1, h2]
    · simp only [findAnswerInDocuments, h1, h2, Bool.false_eq_true, if_false,
        List.map_map]
      have : ((fun s : SourceRec => s.document)
            ∘ fun n => ({ document := n, excerpt := clientExcerptText } : SourceRec))
          = id := rfl
      rw [this, List.map_id]
      exact dedupFirst_nodup _ _

end PrivateQA
